import Mathlib

/-!
Verification of the hit-counter core of the Flask demo application
(`app.py`): the SQLite-backed `hits` table, `init_database`,
`increment_hit_count`, `get_hit_counts`, and the route handlers
`home`, `health` and `hits`.

The store is modelled as an association list from endpoint path strings
to integer counts (the `hits` table has `endpoint TEXT PRIMARY KEY` and
`hits INTEGER`, so keys are unique and counts are signed integers).
Storage-layer failures (`sqlite3.Error`) are modelled by a boolean flag
passed to each operation saying whether the storage layer accepts the
call; the code catches the error and returns `False` / `{}`.
-/

namespace FlaskApp

/-- A row of the `hits` table: endpoint path and its integer count. -/
abbrev Store := List (String × Int)

/-- `SELECT hits FROM hits WHERE endpoint = e` on the table:
first (and with unique keys, only) row with key `e`. -/
def lookupHits : Store → String → Option Int
  | [], _ => none
  | (k, v) :: rest, e => if k = e then some v else lookupHits rest e

/-- `INSERT OR REPLACE INTO hits (endpoint, hits) VALUES (e, v)`:
replace the row keyed `e` if present, otherwise add a new row. -/
def upsertRow : Store → String → Int → Store
  | [], e, v => [(e, v)]
  | (k, w) :: rest, e, v =>
      if k = e then (e, v) :: rest else (k, w) :: upsertRow rest e v

/-- The endpoint column of the table. -/
def keys (s : Store) : List String := s.map Prod.fst

/-- The count of `e` with absent rows read as 0 — the
`COALESCE((SELECT hits FROM hits WHERE endpoint = e), 0)` expression. -/
def countD (s : Store) (e : String) : Int := (lookupHits s e).getD 0

/-- `init_database`: `CREATE TABLE IF NOT EXISTS hits (...)`.
`none` is a store whose table does not exist yet; creating it yields the
empty table, and an existing table (with its rows) is left untouched. -/
def init_database : Option Store → Option Store
  | none => some []
  | some s => some s

/-- `increment_hit_count(endpoint)`: under `db_lock`, execute
`INSERT OR REPLACE INTO hits (endpoint, hits)
 VALUES (e, COALESCE((SELECT hits FROM hits WHERE endpoint = e), 0) + 1)`
and return `True`; on `sqlite3.Error` (modelled by `ok = false`) the
exception is caught, the store is unchanged and `False` is returned. -/
def increment_hit_count (ok : Bool) (s : Store) (endpoint : String) :
    Store × Bool :=
  if ok then (upsertRow s endpoint (countD s endpoint + 1), true)
  else (s, false)

/-- Decidability of the key ordering used by `ORDER BY endpoint`. -/
instance : DecidableRel (fun p q : String × Int => p.1 ≤ q.1) :=
  fun p q => inferInstanceAs (Decidable (p.1 ≤ q.1))

instance : IsTotal (String × Int) (fun p q => p.1 ≤ q.1) :=
  ⟨fun a b => le_total a.1 b.1⟩

instance : IsTrans (String × Int) (fun p q => p.1 ≤ q.1) :=
  ⟨fun _ _ _ hab hbc => le_trans hab hbc⟩

/-- `get_hit_counts()`: `SELECT endpoint, hits FROM hits ORDER BY endpoint`
collected into a dict (insertion order = sorted order); on `sqlite3.Error`
(`ok = false`) return the empty dict. -/
def get_hit_counts (ok : Bool) (s : Store) : List (String × Int) :=
  if ok then s.insertionSort (fun p q => p.1 ≤ q.1) else []

/-- The JSON body returned by the `/` handler. -/
structure HomeResponse where
  message : String
  status : String
deriving DecidableEq

/-- The JSON body returned by the `/health` handler. -/
structure HealthResponse where
  status : String
deriving DecidableEq

/-- The JSON body returned by the `/hits` handler. -/
structure HitsResponse where
  hits : List (String × Int)
  total_hits : Int
deriving DecidableEq

/-- The `home` handler: tracks a hit for `/` (ignoring the result) and
returns the welcome JSON regardless. -/
def home (ok : Bool) (s : Store) : Store × HomeResponse :=
  ((increment_hit_count ok s "/").1,
   { message := "Welcome to the Flask Docker Demo", status := "success" })

/-- The `health` handler: tracks a hit for `/health` (ignoring the result)
and returns the health JSON regardless. -/
def health (ok : Bool) (s : Store) : Store × HealthResponse :=
  ((increment_hit_count ok s "/health").1, { status := "healthy" })

/-- The `hits` handler: reads the counts via `get_hit_counts` (a read-only
query — the store is not mutated and no increment is issued) and renders
them with `total_hits = sum(hit_counts.values()) if hit_counts else 0`. -/
def hits_route (ok : Bool) (s : Store) : Store × HitsResponse :=
  let hit_counts := get_hit_counts ok s
  (s, { hits := hit_counts,
        total_hits := if hit_counts.isEmpty then 0
                      else (hit_counts.map Prod.snd).sum })

/-- One call into the store, as issued by the request handlers: an
initialization, an increment of some endpoint (with the storage layer
accepting or rejecting it), or a snapshot read. -/
inductive Op where
  | initOp : Op
  | inc : String → Bool → Op
  | snap : Bool → Op
deriving DecidableEq

/-- Effect of one operation on an existing store. `initOp` on an existing
table is `CREATE TABLE IF NOT EXISTS`, a no-op; `snap` is read-only. -/
def applyOp (s : Store) : Op → Store
  | .initOp => s
  | .inc e ok => (increment_hit_count ok s e).1
  | .snap _ => s

/-- Run a sequence of operations from a store state. -/
def runS (s : Store) (ops : List Op) : Store := ops.foldl applyOp s

/-! ### Interleaving model of concurrent `increment_hit_count` calls

Each concurrent call executes, under `db_lock`, a read of the current
count (the `COALESCE((SELECT ...), 0)` subquery) followed by the write of
`read + 1` (the `INSERT OR REPLACE`) and the commit.  The lock is held
across the whole read-modify-write, so the two halves of one call are
modelled as two transitions with the lock acquired at the read and
released after the write. -/

/-- Progress of one in-flight `increment_hit_count` call: not yet started,
holding the lock with the pre-increment value read, or finished. -/
inductive TState where
  | idle : TState
  | readDone : Int → TState
  | done : TState
deriving DecidableEq

/-- Global state of an interleaved execution: the table, the holder of
`db_lock` (if any, by thread index), and each thread's progress. -/
structure CState where
  store : Store
  lock : Option Nat
  threads : List TState
deriving DecidableEq

/-- One scheduler transition of the interleaved execution of concurrent
`increment_hit_count e` calls. -/
inductive CStep (e : String) : CState → CState → Prop where
  | acquireRead (c : CState) (i : Nat)
      (h1 : c.lock = none) (h2 : c.threads[i]? = some .idle) :
      CStep e c ⟨c.store, some i,
                 c.threads.set i (.readDone (countD c.store e))⟩
  | writeRelease (c : CState) (i : Nat) (v : Int)
      (h1 : c.lock = some i) (h2 : c.threads[i]? = some (.readDone v)) :
      CStep e c ⟨upsertRow c.store e (v + 1), none, c.threads.set i .done⟩

/-- All states reachable by interleaving the concurrent calls. -/
def CReach (e : String) : CState → CState → Prop :=
  Relation.ReflTransGen (CStep e)

/-- Start state: freshly initialized (empty) store, free lock, `N`
pending calls. -/
def cInit (N : Nat) : CState := ⟨[], none, List.replicate N .idle⟩

/-- Number of completed calls. -/
def numDone : List TState → Nat
  | [] => 0
  | t :: ts => numDone ts + (if t = .done then 1 else 0)

/-- Inductive invariant of the interleaved execution: the table holds
exactly the number of completed calls, and whoever holds the lock has
read exactly that number, with nobody else mid-flight. -/
def CInv (e : String) (N : Nat) (c : CState) : Prop :=
  c.threads.length = N ∧
  c.store = (if numDone c.threads = 0 then []
             else [(e, (numDone c.threads : Int))]) ∧
  (match c.lock with
   | none => ∀ t ∈ c.threads, t = .idle ∨ t = .done
   | some i =>
       c.threads[i]? = some (.readDone (numDone c.threads : Int)) ∧
       ∀ j, j ≠ i → ∀ v : Int, c.threads[j]? ≠ some (.readDone v))

/-! ### Support lemmas about the table primitives -/

theorem lookupHits_upsertRow_self (s : Store) (e : String) (v : Int) :
    lookupHits (upsertRow s e v) e = some v := by
  induction s with
  | nil => simp [upsertRow, lookupHits]
  | cons p rest ih =>
      obtain ⟨k, w⟩ := p
      by_cases h : k = e
      · simp [upsertRow, h, lookupHits]
      · simp [upsertRow, h, lookupHits, ih]

theorem lookupHits_upsertRow_ne (s : Store) {e f : String} (v : Int)
    (h : f ≠ e) : lookupHits (upsertRow s e v) f = lookupHits s f := by
  induction s with
  | nil => simp [upsertRow, lookupHits, Ne.symm h]
  | cons p rest ih =>
      obtain ⟨k, w⟩ := p
      by_cases hk : k = e
      · subst hk
        simp [upsertRow, lookupHits, Ne.symm h]
      · simp [upsertRow, hk, lookupHits, ih]

theorem mem_of_lookupHits_eq_some {s : Store} {e : String} {v : Int}
    (h : lookupHits s e = some v) : (e, v) ∈ s := by
  induction s with
  | nil => simp [lookupHits] at h
  | cons p rest ih =>
      obtain ⟨k, w⟩ := p
      by_cases hk : k = e
      · subst hk
        simp [lookupHits] at h
        simp [h]
      · simp [lookupHits, hk] at h
        exact List.mem_cons_of_mem _ (ih h)

theorem mem_keys_iff_isSome (s : Store) (e : String) :
    e ∈ keys s ↔ (lookupHits s e).isSome := by
  induction s with
  | nil => simp [keys, lookupHits]
  | cons p rest ih =>
      obtain ⟨k, w⟩ := p
      by_cases hk : k = e
      · subst hk
        simp [keys, lookupHits]
      · have hmem : e ∈ keys ((k, w) :: rest) ↔ e ∈ keys rest := by
          simp [keys, Ne.symm hk]
        rw [hmem, ih]
        simp [lookupHits, hk]

theorem mem_upsertRow {s : Store} {e : String} {v : Int} {p : String × Int}
    (h : p ∈ upsertRow s e v) : p ∈ s ∨ p = (e, v) := by
  induction s with
  | nil => simp [upsertRow] at h; simp [h]
  | cons q rest ih =>
      obtain ⟨k, w⟩ := q
      by_cases hk : k = e
      · simp [upsertRow, hk] at h
        rcases h with h | h
        · right; simp [h]
        · left; exact List.mem_cons_of_mem _ h
      · simp [upsertRow, hk] at h
        rcases h with h | h
        · left; simp [h]
        · rcases ih h with h' | h'
          · left; exact List.mem_cons_of_mem _ h'
          · right; exact h'

theorem keys_upsertRow (s : Store) (e : String) (v : Int) :
    keys (upsertRow s e v) =
      if e ∈ keys s then keys s else keys s ++ [e] := by
  induction s with
  | nil => simp [upsertRow, keys]
  | cons p rest ih =>
      obtain ⟨k, w⟩ := p
      by_cases hk : k = e
      · subst hk
        simp [upsertRow, keys]
      · simp only [upsertRow, if_neg hk, keys, List.map_cons] at ih ⊢
        rw [ih]
        by_cases he : e ∈ List.map Prod.fst rest
        · simp [he, Ne.symm hk]
        · simp [he, Ne.symm hk]

theorem nodupKeys_upsertRow {s : Store} (e : String) (v : Int)
    (h : (keys s).Nodup) : (keys (upsertRow s e v)).Nodup := by
  rw [keys_upsertRow]
  by_cases he : e ∈ keys s
  · simpa [he]
  · simp [he, List.nodup_append, h]

theorem lookupHits_eq_some_iff_mem {s : Store} (hnd : (keys s).Nodup)
    (e : String) (v : Int) : lookupHits s e = some v ↔ (e, v) ∈ s := by
  constructor
  · exact mem_of_lookupHits_eq_some
  · intro hm
    induction s with
    | nil => simp at hm
    | cons p rest ih =>
        obtain ⟨k, w⟩ := p
        simp only [keys, List.map_cons, List.nodup_cons] at hnd
        rcases List.mem_cons.mp hm with h | h
        · obtain ⟨h1, h2⟩ := Prod.mk.injEq .. ▸ h.symm
          simp [lookupHits, h1.symm, h2]
        · have hk : k ≠ e := by
            intro hke
            subst hke
            exact hnd.1 (List.mem_map_of_mem Prod.fst h)
          simpa [lookupHits, hk] using ih hnd.2 h

/-! ### Support lemmas about operation traces -/

theorem runS_nil (s : Store) : runS s [] = s := rfl

theorem runS_cons (s : Store) (op : Op) (ops : List Op) :
    runS s (op :: ops) = runS (applyOp s op) ops := rfl

theorem lookupHits_increment_ne (s : Store) {e f : String} (ok : Bool)
    (h : f ≠ e) :
    lookupHits (increment_hit_count ok s e).1 f = lookupHits s f := by
  cases ok
  · rfl
  · exact lookupHits_upsertRow_ne s _ h

theorem countD_increment_self (s : Store) (e : String) :
    countD (increment_hit_count true s e).1 e = countD s e + 1 := by
  simp [increment_hit_count, countD, lookupHits_upsertRow_self]

theorem mem_keys_increment (s : Store) (f e : String) (ok : Bool) :
    e ∈ keys (increment_hit_count ok s f).1 ↔
      e ∈ keys s ∨ (ok = true ∧ e = f) := by
  cases ok with
  | false => simp [increment_hit_count]
  | true =>
      simp only [increment_hit_count, if_true, keys_upsertRow, true_and]
      by_cases hf : f ∈ keys s
      · simp only [if_pos hf]
        constructor
        · exact Or.inl
        · rintro (h | h)
          · exact h
          · rwa [h]
      · simp [if_neg hf]

theorem mem_keys_applyOp (s : Store) (op : Op) (e : String)
    (h : e ∈ keys s) : e ∈ keys (applyOp s op) := by
  cases op with
  | initOp => exact h
  | snap ok => exact h
  | inc f ok => exact (mem_keys_increment s f e ok).mpr (Or.inl h)

theorem mem_keys_runS (ops : List Op) (s : Store) (e : String) :
    e ∈ keys (runS s ops) ↔ e ∈ keys s ∨ Op.inc e true ∈ ops := by
  induction ops generalizing s with
  | nil => simp [runS]
  | cons op rest ih =>
      rw [runS_cons, ih]
      cases op with
      | initOp => simp [applyOp]
      | snap ok => simp [applyOp]
      | inc f ok =>
          rw [show applyOp s (Op.inc f ok) = (increment_hit_count ok s f).1
               from rfl,
             mem_keys_increment]
          simp only [List.mem_cons, Op.inc.injEq]
          constructor
          · rintro ((h | ⟨hok, he⟩) | h)
            · exact Or.inl h
            · exact Or.inr (Or.inl ⟨he, hok.symm⟩)
            · exact Or.inr (Or.inr h)
          · rintro (h | (⟨he, hok⟩ | h))
            · exact Or.inl (Or.inl h)
            · exact Or.inl (Or.inr ⟨hok.symm, he⟩)
            · exact Or.inr h

theorem nodupKeys_applyOp {s : Store} (op : Op) (h : (keys s).Nodup) :
    (keys (applyOp s op)).Nodup := by
  cases op with
  | initOp => exact h
  | snap ok => exact h
  | inc f ok =>
      cases ok
      · exact h
      · exact nodupKeys_upsertRow f _ h

theorem nodupKeys_runS (ops : List Op) {s : Store} (h : (keys s).Nodup) :
    (keys (runS s ops)).Nodup := by
  induction ops generalizing s with
  | nil => exact h
  | cons op rest ih => exact ih (nodupKeys_applyOp op h)

theorem countD_applyOp_ge (s : Store) (op : Op) (e : String) :
    countD s e ≤ countD (applyOp s op) e := by
  cases op with
  | initOp => exact le_refl _
  | snap ok => exact le_refl _
  | inc f ok =>
      cases ok
      · exact le_refl _
      · by_cases hef : e = f
        · subst hef
          rw [show applyOp s (Op.inc e true) = (increment_hit_count true s e).1
               from rfl,
             countD_increment_self]
          omega
        · rw [show countD (applyOp s (Op.inc f true)) e = countD s e from by
               simp [countD, applyOp, lookupHits_increment_ne s true hef]]

theorem countD_runS_ge (ops : List Op) (s : Store) (e : String) :
    countD s e ≤ countD (runS s ops) e := by
  induction ops generalizing s with
  | nil => exact le_refl _
  | cons op rest ih =>
      exact le_trans (countD_applyOp_ge s op e) (ih (applyOp s op))

theorem countD_nonneg {s : Store} (h : ∀ p ∈ s, 0 ≤ p.2) (e : String) :
    0 ≤ countD s e := by
  unfold countD
  cases hl : lookupHits s e with
  | none => simp
  | some v => simpa using h (e, v) (mem_of_lookupHits_eq_some hl)

theorem nonneg_applyOp {s : Store} (op : Op)
    (h : ∀ p ∈ s, 0 ≤ p.2) : ∀ p ∈ applyOp s op, 0 ≤ p.2 := by
  cases op with
  | initOp => exact h
  | snap ok => exact h
  | inc f ok =>
      cases ok
      · exact h
      · intro p hp
        rcases mem_upsertRow hp with h' | h'
        · exact h p h'
        · rw [h']
          have := countD_nonneg h f
          simp only
          omega

theorem nonneg_runS (ops : List Op) {s : Store}
    (h : ∀ p ∈ s, 0 ≤ p.2) : ∀ p ∈ runS s ops, 0 ≤ p.2 := by
  induction ops generalizing s with
  | nil => exact h
  | cons op rest ih => exact ih (nonneg_applyOp op h)

theorem isSome_runS (ops : List Op) {s : Store} {e : String}
    (h : (lookupHits s e).isSome) : (lookupHits (runS s ops) e).isSome := by
  rw [← mem_keys_iff_isSome] at h ⊢
  exact (mem_keys_runS ops s e).mpr (Or.inl h)

theorem countD_runS_count (l : List Op) (s : Store) (e : String)
    (hl : ∀ op ∈ l, ∃ f, op = Op.inc f true) :
    countD (runS s l) e = countD s e + (l.count (Op.inc e true) : Int) := by
  induction l generalizing s with
  | nil => simp [runS]
  | cons op rest ih =>
      obtain ⟨f, hf⟩ := hl op (List.mem_cons_self op rest)
      subst hf
      rw [runS_cons, ih _ (fun op h => hl op (List.mem_cons_of_mem _ h))]
      by_cases hef : e = f
      · subst hef
        rw [show applyOp s (Op.inc e true) = (increment_hit_count true s e).1
             from rfl,
           countD_increment_self, List.count_cons_self]
        push_cast
        ring
      · rw [show countD (applyOp s (Op.inc f true)) e = countD s e from by
             simp [countD, applyOp, lookupHits_increment_ne s true hef],
           List.count_cons_of_ne]
        simp [Op.inc.injEq, hef]

/-! ### Support lemmas about snapshots -/

theorem mem_get_hit_counts (s : Store) (p : String × Int) :
    p ∈ get_hit_counts true s ↔ p ∈ s := by
  simp [get_hit_counts]

theorem sorted_get_hit_counts (s : Store) :
    List.Sorted (fun p q : String × Int => p.1 ≤ q.1)
      (get_hit_counts true s) := by
  simpa [get_hit_counts] using
    List.sorted_insertionSort (fun p q : String × Int => p.1 ≤ q.1) s

theorem mem_keys_get_hit_counts (s : Store) (e : String) :
    e ∈ keys (get_hit_counts true s) ↔ e ∈ keys s := by
  simp [keys, get_hit_counts]

/-! ### Claims -/

/-- C1: for every endpoint string `e`, a successful `increment_hit_count`
stores `previous count + 1` for `e`; in particular when no record existed
(`lookupHits s e = none`, so the stored value is `0 + 1 = 1`) it creates
the record with count 1. -/
theorem increment_sets_count_to_prev_plus_one (s : Store) (e : String) :
    lookupHits (increment_hit_count true s e).1 e =
      some ((lookupHits s e).getD 0 + 1) := by
  simp [increment_hit_count, countD, lookupHits_upsertRow_self]

/-- C2: `increment_hit_count` returns `true` exactly when the storage
layer accepts the operation and `false` when it rejects it; the rejection
is swallowed (the store is left unchanged and no error escapes), and the
`home` handler returns its normal success JSON whether or not the
increment succeeded. -/
theorem increment_result_swallows_errors (ok : Bool) (s : Store)
    (e : String) :
    (increment_hit_count ok s e).2 = ok ∧
    (increment_hit_count false s e).1 = s ∧
    (home ok s).2 = { message := "Welcome to the Flask Docker Demo",
                      status := "success" } := by
  refine ⟨?_, rfl, rfl⟩
  cases ok <;> rfl

/-- C3: a snapshot of any store reachable from a fresh store by a trace
of operations contains exactly the endpoints with a successful increment
in the trace, maps each to its current stored count, and is sorted by
endpoint name; the snapshot of an empty store is empty, and a failing
read degrades to the empty mapping. -/
theorem get_hit_counts_spec (ops : List Op) (e : String) (c : Int) :
    (e ∈ keys (get_hit_counts true (runS [] ops)) ↔ Op.inc e true ∈ ops) ∧
    ((e, c) ∈ get_hit_counts true (runS [] ops) ↔
      lookupHits (runS [] ops) e = some c) ∧
    List.Sorted (fun p q : String × Int => p.1 ≤ q.1)
      (get_hit_counts true (runS [] ops)) ∧
    get_hit_counts true ([] : Store) = [] ∧
    (∀ s : Store, get_hit_counts false s = []) := by
  refine ⟨?_, ?_, sorted_get_hit_counts _, rfl, fun s => rfl⟩
  · rw [mem_keys_get_hit_counts, mem_keys_runS]
    simp [keys]
  · rw [mem_get_hit_counts]
    exact (lookupHits_eq_some_iff_mem
      (nodupKeys_runS ops (by simp [keys])) e c).symm

/-- C4: `init_database` is idempotent — running it twice from any store
state equals running it once — and on an already-initialized store it is
the identity, so no existing endpoint count is reset. -/
theorem init_database_idempotent (st : Option Store) :
    init_database (init_database st) = init_database st ∧
    (∀ s : Store, init_database (some s) = some s) := by
  refine ⟨?_, fun s => rfl⟩
  cases st <;> rfl

/-- C9: the `/hits` handler's `total_hits` equals the sum of the counts
in the snapshot it renders, and on a freshly initialized store with no
prior increments it renders an empty mapping with total 0. -/
theorem hits_total_is_sum (ok : Bool) (s : Store) :
    (hits_route ok s).2.total_hits =
      ((hits_route ok s).2.hits.map Prod.snd).sum ∧
    (hits_route true ((init_database none).getD [])).2.hits = [] ∧
    (hits_route true ((init_database none).getD [])).2.total_hits = 0 := by
  refine ⟨?_, rfl, rfl⟩
  have h1 : (hits_route ok s).2.total_hits =
      if (get_hit_counts ok s).isEmpty then 0
      else ((get_hit_counts ok s).map Prod.snd).sum := rfl
  have h2 : (hits_route ok s).2.hits = get_hit_counts ok s := rfl
  rw [h1, h2]
  by_cases h : (get_hit_counts ok s).isEmpty
  · rw [if_pos h, List.isEmpty_iff.mp h]
    rfl
  · rw [if_neg h]

/-- C10: `increment_hit_count` performs the upsert for every string,
with no validation of the spec's non-empty-string precondition; in
particular incrementing the empty string on a fresh store succeeds,
returns `true`, and makes `""` appear with count 1 in snapshots. -/
theorem increment_accepts_empty_string :
    (∀ (s : Store) (e : String),
        increment_hit_count true s e =
          (upsertRow s e ((lookupHits s e).getD 0 + 1), true)) ∧
    increment_hit_count true [] "" = ([("", 1)], true) ∧
    lookupHits (increment_hit_count true [] "").1 "" = some 1 ∧
    ("", (1 : Int)) ∈ get_hit_counts true (increment_hit_count true [] "").1 := by
  refine ⟨fun s e => rfl, rfl, rfl, ?_⟩
  rw [mem_get_hit_counts]
  simp [increment_hit_count, upsertRow, countD, lookupHits]

theorem runS_replicate_snap (s : Store) (ok : Bool) (k : Nat) :
    runS s (List.replicate k (Op.snap ok)) = s := by
  induction k with
  | zero => rfl
  | succ n ih => rw [List.replicate_succ, runS_cons]; exact ih

/-- C5: invoking the `/hits` handler any number of times leaves every
stored count unchanged (the handler only calls the read-only
`get_hit_counts`, never `increment_hit_count`), so as long as "/hits"
has no record, it never appears as a key of the snapshot the handler
returns, no matter how often the handler runs. -/
theorem hits_route_self_exclusion (s : Store) (k : Nat) (ok : Bool)
    (h : "/hits" ∉ keys s) :
    runS s (List.replicate k (Op.snap ok)) = s ∧
    (∀ e, lookupHits (runS s (List.replicate k (Op.snap ok))) e =
      lookupHits s e) ∧
    (∀ ok2 : Bool, "/hits" ∉
      keys ((hits_route ok2
        (runS s (List.replicate k (Op.snap ok)))).2.hits)) := by
  rw [runS_replicate_snap]
  refine ⟨rfl, fun e => rfl, ?_⟩
  intro ok2
  cases ok2
  · simp [hits_route, get_hit_counts, keys]
  · have hh : (hits_route true s).2.hits = get_hit_counts true s := rfl
    rw [hh, mem_keys_get_hit_counts]
    exact h

/-- Witness for C5 at `s = [("/", 2)]`, `k = 3`, `ok = true`. -/
theorem hits_route_self_exclusion_witness :
    ("/hits" ∉ keys [("/", (2 : Int))]) ∧
    (runS [("/", (2 : Int))] (List.replicate 3 (Op.snap true)) =
        [("/", (2 : Int))] ∧
     (∀ e, lookupHits
        (runS [("/", (2 : Int))] (List.replicate 3 (Op.snap true))) e =
        lookupHits [("/", (2 : Int))] e) ∧
     (∀ ok2 : Bool, "/hits" ∉
        keys ((hits_route ok2 (runS [("/", (2 : Int))]
          (List.replicate 3 (Op.snap true)))).2.hits))) :=
  ⟨by decide, hits_route_self_exclusion [("/", 2)] 3 true (by decide)⟩

/-- C6: across any trace of initialize/increment/snapshot operations, a
stored count never decreases, an existing record is never deleted, and
starting from a store with non-negative counts every reachable store has
only non-negative counts. -/
theorem counts_monotone_and_nonneg (s : Store) (ops : List Op) (e : String)
    (h : ∀ p ∈ s, 0 ≤ p.2) :
    countD s e ≤ countD (runS s ops) e ∧
    ((lookupHits s e).isSome → (lookupHits (runS s ops) e).isSome) ∧
    (∀ p ∈ runS s ops, 0 ≤ p.2) :=
  ⟨countD_runS_ge ops s e, fun hs => isSome_runS ops hs, nonneg_runS ops h⟩

/-- Witness for C6 at `s = [("/", 1)]`,
`ops = [initOp, inc "/" true, snap true]`, `e = "/"`. -/
theorem counts_monotone_and_nonneg_witness :
    (∀ p ∈ [("/", (1 : Int))], 0 ≤ p.2) ∧
    (countD [("/", (1 : Int))] "/" ≤
      countD (runS [("/", (1 : Int))]
        [Op.initOp, Op.inc "/" true, Op.snap true]) "/" ∧
     ((lookupHits [("/", (1 : Int))] "/").isSome →
       (lookupHits (runS [("/", (1 : Int))]
         [Op.initOp, Op.inc "/" true, Op.snap true]) "/").isSome) ∧
     (∀ p ∈ runS [("/", (1 : Int))]
        [Op.initOp, Op.inc "/" true, Op.snap true], 0 ≤ p.2)) :=
  ⟨by decide,
   counts_monotone_and_nonneg [("/", 1)]
     [Op.initOp, Op.inc "/" true, Op.snap true] "/" (by decide)⟩

/-- C7 as stated fails at `M = 0`, `K = 1`: after zero increments of
"/a" and one successful increment of "/b", the snapshot is exactly
`{"/b": 1}` — it is not the claimed `{"/a": 0, "/b": 1}`, since "/a" has
no record at all rather than one with count 0. -/
theorem interleaving_claim_counterexample :
    get_hit_counts true (runS [] [Op.inc "/b" true]) = [("/b", 1)] ∧
    get_hit_counts true (runS [] [Op.inc "/b" true]) ≠
      [("/a", 0), ("/b", 1)] ∧
    lookupHits (runS [] [Op.inc "/b" true]) "/a" = none := by
  refine ⟨rfl, ?_, rfl⟩
  decide

/-- C7 (amended): for all M, K ≥ 0 and distinct endpoints a and b,
incrementing a M times and b K times in any interleaving leaves a mapped
to M when M ≥ 1 (a is absent when M = 0), b mapped to K when K ≥ 1 (b is
absent when K = 0), and no other endpoint present; each increment changes
only the record of its own endpoint. -/
theorem increments_isolated_per_key (a b : String) (l : List Op)
    (M K : Nat) (_hab : a ≠ b)
    (hl : ∀ op ∈ l, op = Op.inc a true ∨ op = Op.inc b true)
    (hM : l.count (Op.inc a true) = M)
    (hK : l.count (Op.inc b true) = K) :
    lookupHits (runS [] l) a = (if M = 0 then none else some (M : Int)) ∧
    lookupHits (runS [] l) b = (if K = 0 then none else some (K : Int)) ∧
    (∀ e, e ∈ keys (runS [] l) → e = a ∨ e = b) ∧
    (∀ (s : Store) (e f : String) (ok : Bool), f ≠ e →
       lookupHits (increment_hit_count ok s e).1 f = lookupHits s f) := by
  have hall : ∀ op ∈ l, ∃ f, op = Op.inc f true := by
    intro op hop
    rcases hl op hop with h | h
    · exact ⟨a, h⟩
    · exact ⟨b, h⟩
  have key : ∀ (e : String) (m : Nat), l.count (Op.inc e true) = m →
      lookupHits (runS [] l) e =
        (if m = 0 then none else some (m : Int)) := by
    intro e m hm
    have hcount := countD_runS_count l [] e hall
    rw [hm] at hcount
    have hc : countD (runS [] l) e = (m : Int) := by
      simpa [countD, lookupHits] using hcount
    by_cases hm0 : m = 0
    · subst hm0
      rw [if_pos rfl]
      have hnotmem : Op.inc e true ∉ l := by
        intro hmem
        have := List.count_pos_iff.mpr hmem
        omega
      have hkeys : e ∉ keys (runS [] l) := by
        rw [mem_keys_runS]
        rintro (hk | hk)
        · simp [keys] at hk
        · exact hnotmem hk
      rw [mem_keys_iff_isSome] at hkeys
      simpa using hkeys
    · rw [if_neg hm0]
      cases hlk : lookupHits (runS [] l) e with
      | none =>
          rw [countD, hlk] at hc
          simp at hc
          exact absurd hc.symm (by exact_mod_cast hm0)
      | some v =>
          rw [countD, hlk] at hc
          simp at hc
          rw [hc]
  refine ⟨key a M hM, key b K hK, ?_,
    fun s e f ok hf => lookupHits_increment_ne s ok hf⟩
  intro e he
  rw [mem_keys_runS] at he
  rcases he with he | he
  · simp [keys] at he
  · rcases hl _ he with h | h
    · exact Or.inl (Op.inc.inj h).1
    · exact Or.inr (Op.inc.inj h).1

/-- Witness for C7 (amended) at a = "/a", b = "/b",
`l = [inc "/a", inc "/b", inc "/a"]`, M = 2, K = 1. -/
theorem increments_isolated_per_key_witness :
    (("/a" : String) ≠ "/b") ∧
    (∀ op ∈ [Op.inc "/a" true, Op.inc "/b" true, Op.inc "/a" true],
        op = Op.inc "/a" true ∨ op = Op.inc "/b" true) ∧
    ([Op.inc "/a" true, Op.inc "/b" true,
        Op.inc "/a" true].count (Op.inc "/a" true) = 2) ∧
    ([Op.inc "/a" true, Op.inc "/b" true,
        Op.inc "/a" true].count (Op.inc "/b" true) = 1) ∧
    (lookupHits (runS []
        [Op.inc "/a" true, Op.inc "/b" true, Op.inc "/a" true]) "/a" =
        (if (2 : Nat) = 0 then none else some ((2 : Nat) : Int)) ∧
     lookupHits (runS []
        [Op.inc "/a" true, Op.inc "/b" true, Op.inc "/a" true]) "/b" =
        (if (1 : Nat) = 0 then none else some ((1 : Nat) : Int)) ∧
     (∀ e, e ∈ keys (runS []
        [Op.inc "/a" true, Op.inc "/b" true, Op.inc "/a" true]) →
        e = "/a" ∨ e = "/b") ∧
     (∀ (s : Store) (e f : String) (ok : Bool), f ≠ e →
        lookupHits (increment_hit_count ok s e).1 f = lookupHits s f)) :=
  ⟨by decide, by decide, by decide, by decide,
   increments_isolated_per_key "/a" "/b"
     [Op.inc "/a" true, Op.inc "/b" true, Op.inc "/a" true] 2 1
     (by decide) (by decide) (by decide) (by decide)⟩

/-! ### Support lemmas for the interleaving model -/

theorem numDone_set_of_ne_done (ts : List TState) (i : Nat) (a b : TState)
    (h : ts[i]? = some a) (ha : a ≠ .done) (hb : b ≠ .done) :
    numDone (ts.set i b) = numDone ts := by
  induction ts generalizing i with
  | nil => simp at h
  | cons t ts ih =>
      cases i with
      | zero =>
          simp only [List.getElem?_cons_zero, Option.some.injEq] at h
          subst h
          simp [List.set, numDone, ha, hb]
      | succ n =>
          simp only [List.getElem?_cons_succ] at h
          simp [List.set, numDone, ih n h]

theorem numDone_set_done (ts : List TState) (i : Nat) (a : TState)
    (h : ts[i]? = some a) (ha : a ≠ .done) :
    numDone (ts.set i .done) = numDone ts + 1 := by
  induction ts generalizing i with
  | nil => simp at h
  | cons t ts ih =>
      cases i with
      | zero =>
          simp only [List.getElem?_cons_zero, Option.some.injEq] at h
          subst h
          simp [List.set, numDone, ha]
      | succ n =>
          simp only [List.getElem?_cons_succ] at h
          simp only [List.set, numDone, ih n h]
          omega

theorem numDone_replicate_idle (N : Nat) :
    numDone (List.replicate N .idle) = 0 := by
  induction N with
  | zero => rfl
  | succ n ih => simp [List.replicate_succ, numDone, ih]

theorem numDone_eq_length (ts : List TState) (h : ∀ t ∈ ts, t = .done) :
    numDone ts = ts.length := by
  induction ts with
  | nil => rfl
  | cons t ts ih =>
      have ht := h t (List.mem_cons_self t ts)
      simp [numDone, ht, ih (fun u hu => h u (List.mem_cons_of_mem _ hu))]

theorem countD_invStore (e : String) (n : Nat) :
    countD (if n = 0 then [] else [(e, (n : Int))]) e = (n : Int) := by
  by_cases hn : n = 0
  · subst hn
    simp [countD, lookupHits]
  · simp [hn, countD, lookupHits]

/-- The initial state of the interleaved execution satisfies the
invariant. -/
theorem CInv_cInit (e : String) (N : Nat) : CInv e N (cInit N) := by
  refine ⟨by simp [cInit], by simp [cInit, numDone_replicate_idle], ?_⟩
  intro t ht
  exact Or.inl (List.eq_of_mem_replicate ht)

/-- One scheduler transition preserves the invariant. -/
theorem CInv_step {e : String} {N : Nat} {c c' : CState}
    (hstep : CStep e c c') (hinv : CInv e N c) : CInv e N c' := by
  obtain ⟨hlen, hstore, hlock⟩ := hinv
  cases hstep with
  | acquireRead i h1 h2 =>
      rw [h1] at hlock
      have hilt : i < c.threads.length := (List.getElem?_eq_some_iff.mp h2).choose
      have hnd : numDone (c.threads.set i (.readDone (countD c.store e))) =
          numDone c.threads :=
        numDone_set_of_ne_done _ i _ _ h2
          (fun hc => TState.noConfusion hc) (fun hc => TState.noConfusion hc)
      have hread : countD c.store e = (numDone c.threads : Int) := by
        rw [hstore]
        exact countD_invStore e (numDone c.threads)
      refine ⟨by simpa using hlen, by simpa [hnd] using hstore, ?_, ?_⟩
      · rw [hnd, ← hread]
        exact List.getElem?_set_self hilt
      · intro j hji v
        rw [List.getElem?_set_ne (fun hc => hji hc.symm)]
        intro hj
        rcases hlock _ (List.getElem?_mem hj) with hc | hc <;>
          exact TState.noConfusion hc
  | writeRelease i v h1 h2 =>
      rw [h1] at hlock
      obtain ⟨hi, hothers⟩ := hlock
      have hilt : i < c.threads.length := (List.getElem?_eq_some_iff.mp h2).choose
      have hv : v = (numDone c.threads : Int) := by
        rw [h2, Option.some.injEq] at hi
        exact TState.readDone.inj hi
      have hnd : numDone (c.threads.set i .done) = numDone c.threads + 1 :=
        numDone_set_done _ i _ h2 (fun hc => TState.noConfusion hc)
      refine ⟨by simpa using hlen, ?_, ?_⟩
      · rw [hnd, hstore, hv]
        by_cases h0 : numDone c.threads = 0
        · simp [h0, upsertRow]
        · simp only [h0, if_neg, ite_false, Nat.succ_ne_zero, upsertRow,
            if_pos rfl]
          push_cast
          ring_nf
      · intro t ht
        obtain ⟨j, hj⟩ := List.getElem?_of_mem ht
        by_cases hji : j = i
        · subst hji
          rw [List.getElem?_set_self hilt, Option.some.injEq] at hj
          exact Or.inr hj.symm
        · rw [List.getElem?_set_ne (fun hc => hji hc.symm)] at hj
          cases t with
          | idle => exact Or.inl rfl
          | readDone w => exact absurd hj (hothers j hji w)
          | done => exact Or.inr rfl

/-- Every reachable state of the interleaved execution satisfies the
invariant. -/
theorem CInv_reach {e : String} {N : Nat} {c : CState}
    (h : CReach e (cInit N) c) : CInv e N c := by
  induction h with
  | refl => exact CInv_cInit e N
  | tail _ hstep ih => exact CInv_step hstep ih

/-- C8: for every N ≥ 1, every complete interleaved execution of N
concurrent `increment_hit_count "/x"` calls against a freshly
initialized store — each call's read-modify-write held under `db_lock` —
ends with the stored count for "/x" equal to exactly N: no update is
ever lost. -/
theorem concurrent_increments_no_lost_updates (N : Nat) (c : CState)
    (hN : 1 ≤ N) (hreach : CReach "/x" (cInit N) c)
    (hterm : ∀ t ∈ c.threads, t = .done) :
    lookupHits c.store "/x" = some (N : Int) ∧
    ("/x", (N : Int)) ∈ get_hit_counts true c.store := by
  obtain ⟨hlen, hstore, -⟩ := CInv_reach hreach
  have hnd : numDone c.threads = N := by
    rw [numDone_eq_length c.threads hterm, hlen]
  have hN0 : N ≠ 0 := by omega
  have hlk : lookupHits c.store "/x" = some (N : Int) := by
    rw [hstore, hnd]
    simp [hN0, lookupHits]
  exact ⟨hlk, (mem_get_hit_counts c.store _).mpr
    (mem_of_lookupHits_eq_some hlk)⟩

/-- Witness for C8 at N = 1 with the two-step schedule of the single
call: acquire the lock and read 0, then write 1 and release. -/
theorem concurrent_increments_no_lost_updates_witness :
    (1 : Nat) ≥ 1 ∧
    (∀ t ∈ (⟨[("/x", (1 : Int))], none, [TState.done]⟩ : CState).threads,
        t = TState.done) ∧
    (lookupHits (⟨[("/x", (1 : Int))], none,
        [TState.done]⟩ : CState).store "/x" = some (((1 : Nat)) : Int) ∧
     ("/x", ((1 : Nat) : Int)) ∈ get_hit_counts true
        (⟨[("/x", (1 : Int))], none, [TState.done]⟩ : CState).store) := by
  refine ⟨le_refl 1, by decide, ?_⟩
  refine concurrent_increments_no_lost_updates 1
    ⟨[("/x", 1)], none, [TState.done]⟩ (le_refl 1) ?_ (by decide)
  show Relation.ReflTransGen (CStep "/x") (cInit 1)
    ⟨[("/x", 1)], none, [TState.done]⟩
  refine Relation.ReflTransGen.head
    (CStep.acquireRead (cInit 1) 0 rfl rfl) ?_
  refine Relation.ReflTransGen.head
    (CStep.writeRelease _ 0 0 rfl rfl) ?_
  exact Relation.ReflTransGen.refl

end FlaskApp
